import Mathlib

/-!
Verification of the hybrid retrieval fusion logic of
`ai/services/hybrid_retriever_service.py` (function `_min_max_normalize` and
class `HybridRetriever`) and of the cache helpers of `cache/redis_cache.py`.

Python floats are embedded as rationals (`ℚ`), so all arithmetic is exact;
`math.isclose` is embedded with its documented semantics and its default
relative tolerance `1e-9` (taken as the rational `1/10^9`).  Python dicts are
embedded as insertion-ordered association lists where writing an existing
key replaces the value in place and a new key is appended at the end, which
is exactly the observable behaviour of CPython dicts.  `list.sort(...,
reverse=True)` is a stable descending sort and is embedded as Mathlib's
(stable) `List.insertionSort` with the reflexive total relation
"greater-or-equal score".  Python's builtin `hash` on strings is
runtime-dependent (it is seeded per process), so it is carried as an
explicit parameter `hash : String → Int` throughout; nothing below depends
on anything but its functionality.  The `await`/IO structure of
`HybridRetriever.search` is embedded in the `Except ε` monad: each external
collaborator (the two backends, the Redis GET/SET, JSON decoding) is a field
of an environment record recording the outcome that collaborator produces
during the one call under consideration.
-/

namespace HybridFusion

/-! ### Data model

A `Hit` is one retrieved candidate from a single backend, a Python dict with
optional keys `id`, `document`, `metadata`, `score`.  In the source `id` is
`str`-able and `document` a string; `metadata` is an opaque mapping, for
which only Python truthiness (non-empty vs empty-or-absent) and propagation
are observable in this code, so it is embedded as an association list whose
emptiness models falsiness. -/

structure Hit where
  id       : Option String
  document : Option String
  metadata : List (String × String)
  score    : Option ℚ
deriving Repr, DecidableEq

/-- `r.get("score", 0.0)` — the raw score used at lines 45–46 of
`hybrid_retriever_service.py`. -/
def rawScore (r : Hit) : ℚ := r.score.getD 0

/-- `math.isclose(a, b)` with the default `rel_tol=1e-9`, `abs_tol=0.0`:
`abs(a-b) <= max(rel_tol * max(abs(a), abs(b)), abs_tol)`. -/
def isclose (a b : ℚ) : Bool :=
  |a - b| ≤ (1 / 1000000000) * max |a| |b|

/-- `_min_max_normalize(scores)` from `hybrid_retriever_service.py`:
empty list stays empty; otherwise compute `min_s`, `max_s` (Python's
`min`/`max` over a non-empty list, i.e. left folds over the tail starting at
the head); if `math.isclose(min_s, max_s)` return all `1.0`; otherwise map
each `s` to `(s - min_s) / (max_s - min_s)`. -/
def _min_max_normalize : List ℚ → List ℚ
  | [] => []
  | s :: rest =>
    let min_s := rest.foldl min s
    let max_s := rest.foldl max s
    if isclose min_s max_s then (s :: rest).map (fun _ => 1)
    else (s :: rest).map (fun x => (x - min_s) / (max_s - min_s))

/-- The value `_min_max_normalize` assigns to an element `x` of a non-empty
list whose Python `min` is `min_s` and whose Python `max` is `max_s`. -/
def normVal (min_s max_s x : ℚ) : ℚ :=
  if isclose min_s max_s then 1 else (x - min_s) / (max_s - min_s)

/-- `make_key(r)` (lines 49–52): the hit's `id` if truthy (present and
non-empty), else `str(hash(r.get("document", "")))`. -/
def make_key (hash : String → Int) (r : Hit) : String :=
  if r.id.getD "" ≠ "" then r.id.getD "" else toString (hash (r.document.getD ""))

/-- Writing `m[k] = v` into a CPython dict represented as an
insertion-ordered association list: an existing key keeps its position and
gets the new value, a new key is appended at the end. -/
def upsert {α : Type} (k : String) (v : α) (m : List (String × α)) : List (String × α) :=
  if k ∈ m.map Prod.fst then
    m.map (fun p => if p.1 = k then (k, v) else p)
  else m ++ [(k, v)]

/-- The dict comprehension `{make_key(r): (r, scores[i]) for i, r in
enumerate(results)}` (lines 54–55), applied to the already-zipped list of
hits and normalized scores. -/
def buildMap (hash : String → Int) (pairs : List (Hit × ℚ)) :
    List (String × (Hit × ℚ)) :=
  pairs.foldl (fun m rv => upsert (make_key hash rv.1) rv m) []

/-- One value of the intermediate dict `merged` (lines 57–82). -/
structure MergedItem where
  id       : Option String
  document : Option String
  metadata : List (String × String)
  bm25     : ℚ
  semantic : ℚ
deriving Repr, DecidableEq

/-- The entry seeded from a BM25 hit (lines 59–65): `bm25` is the normalized
score, `semantic` is `0.0`. -/
def seedEntry (item : Hit) (norm_score : ℚ) : MergedItem :=
  { id := item.id, document := item.document, metadata := item.metadata,
    bm25 := norm_score, semantic := 0 }

/-- The first merge loop (lines 58–65): every `bm25_map` entry becomes a
seeded `merged` entry (keys of a dict are distinct, so plain writes). -/
def seedBm25 (bm25_map : List (String × (Hit × ℚ))) : List (String × MergedItem) :=
  bm25_map.map (fun p => (p.1, seedEntry p.2.1 p.2.2))

/-- The update applied when a vector hit's key is already merged
(lines 69–74): `semantic := max(semantic, norm_score)`; metadata replaced
when the vector hit's metadata is truthy; document replaced when the vector
hit's document is truthy and strictly longer than the current one
(`merged[key]["document"] or ""`). -/
def updateMerged (e : MergedItem) (item : Hit) (norm_score : ℚ) : MergedItem :=
  { e with
    semantic := max e.semantic norm_score
    metadata := if item.metadata ≠ [] then item.metadata else e.metadata
    document :=
      if (item.document.getD "") ≠ "" ∧
          (e.document.getD "").length < (item.document.getD "").length
      then item.document else e.document }

/-- The entry created when a vector hit's key is new (lines 75–82):
`bm25` is `0.0`, `semantic` is the normalized score. -/
def newSemEntry (item : Hit) (norm_score : ℚ) : MergedItem :=
  { id := item.id, document := item.document, metadata := item.metadata,
    bm25 := 0, semantic := norm_score }

/-- One iteration of the second merge loop (lines 67–82). -/
def vectorStep (merged : List (String × MergedItem)) (p : String × (Hit × ℚ)) :
    List (String × MergedItem) :=
  if p.1 ∈ merged.map Prod.fst then
    merged.map (fun q => if q.1 = p.1 then (q.1, updateMerged q.2 p.2.1 p.2.2) else q)
  else merged ++ [(p.1, newSemEntry p.2.1 p.2.2)]

/-- The second merge loop (lines 67–82): fold the vector map into `merged`. -/
def foldVector (merged : List (String × MergedItem))
    (vector_map : List (String × (Hit × ℚ))) : List (String × MergedItem) :=
  vector_map.foldl vectorStep merged

/-- One row of the final output (lines 88–95). -/
structure FusedResult where
  id             : Option String
  document       : Option String
  metadata       : List (String × String)
  bm25_score     : ℚ
  semantic_score : ℚ
  score          : ℚ
deriving Repr, DecidableEq

/-- Lines 87–95: `final_score = alpha * semantic + (1.0 - alpha) * bm25`
and the output row built from a merged entry. -/
def toFused (alpha : ℚ) (e : MergedItem) : FusedResult :=
  { id := e.id, document := e.document, metadata := e.metadata,
    bm25_score := e.bm25, semantic_score := e.semantic,
    score := alpha * e.semantic + (1 - alpha) * e.bm25 }

/-- `bm25_map` (line 54) for a BM25 result list. -/
def bm25Map (hash : String → Int) (bm25_results : List Hit) :
    List (String × (Hit × ℚ)) :=
  buildMap hash (bm25_results.zip (_min_max_normalize (bm25_results.map rawScore)))

/-- `vector_map` (line 55) for a vector result list. -/
def vectorMap (hash : String → Int) (vector_results : List Hit) :
    List (String × (Hit × ℚ)) :=
  buildMap hash (vector_results.zip (_min_max_normalize (vector_results.map rawScore)))

/-- The fully merged dict `merged` (lines 57–82). -/
def mergedMap (hash : String → Int) (bm25_results vector_results : List Hit) :
    List (String × MergedItem) :=
  foldVector (seedBm25 (bm25Map hash bm25_results)) (vectorMap hash vector_results)

/-- The pre-sort list `results` of `(key, out)` pairs (lines 85–96). -/
def fusedList (hash : String → Int) (bm25_results vector_results : List Hit)
    (alpha : ℚ) : List (String × FusedResult) :=
  (mergedMap hash bm25_results vector_results).map (fun p => (p.1, toFused alpha p.2))

/-- The comparison used by `results.sort(key=lambda kv: kv[1]["score"],
reverse=True)`: a stable sort with this total reflexive relation is exactly
Python's stable descending sort by score. -/
def scoreGE (a b : String × FusedResult) : Prop := b.2.score ≤ a.2.score

instance : DecidableRel scoreGE := fun a b =>
  inferInstanceAs (Decidable (b.2.score ≤ a.2.score))

instance : IsTotal (String × FusedResult) scoreGE :=
  ⟨fun a b => le_total b.2.score a.2.score⟩

instance : IsTrans (String × FusedResult) scoreGE :=
  ⟨fun _ _ _ h1 h2 => le_trans h2 h1⟩

/-- Ranking by `bm25_score` alone (same stable descending sort). -/
def bm25GE (a b : String × FusedResult) : Prop := b.2.bm25_score ≤ a.2.bm25_score

instance : DecidableRel bm25GE := fun a b =>
  inferInstanceAs (Decidable (b.2.bm25_score ≤ a.2.bm25_score))

/-- Ranking by `semantic_score` alone (same stable descending sort). -/
def semanticGE (a b : String × FusedResult) : Prop :=
  b.2.semantic_score ≤ a.2.semantic_score

instance : DecidableRel semanticGE := fun a b =>
  inferInstanceAs (Decidable (b.2.semantic_score ≤ a.2.semantic_score))

/-- Lines 98–99 with the keys still attached: the sorted, truncated list. -/
def rankedKeyed (hash : String → Int) (bm25_results vector_results : List Hit)
    (alpha : ℚ) (top_k : ℕ) : List (String × FusedResult) :=
  (List.insertionSort scoreGE (fusedList hash bm25_results vector_results alpha)).take top_k

/-- The pure core of `HybridRetriever.search` (lines 44–99): from the two
backend result lists to the ranked, truncated output `ranked`. -/
def search (hash : String → Int) (bm25_results vector_results : List Hit)
    (alpha : ℚ) (top_k : ℕ) : List FusedResult :=
  (rankedKeyed hash bm25_results vector_results alpha top_k).map Prod.snd

/-- The distinct merge keys appearing in either backend list. -/
def distinctKeys (hash : String → Int) (bm25_results vector_results : List Hit) :
    List String :=
  ((bm25_results.map (make_key hash)) ++ (vector_results.map (make_key hash))).dedup

/-! ### Effectful model of `HybridRetriever.search` and the cache layer

`Env ε` records, for one call of `search`, the outcome each external
collaborator produces: the Redis GET/SET (which can raise, `Except.error`),
JSON decoding (`json.loads`, whose `JSONDecodeError` is modelled by
`decode` returning `none`, matching the `try/except` in `cache_get_json` of
`redis_cache.py`), and the two backend `search` calls.  `cache_enabled`
models the `REDIS_CACHE_ENABLED` truthiness test made at lines 34 and 101,
and `cache_key` the digest `make_cache_key(...)` computes at line 35. -/

structure Env (ε : Type) where
  cache_enabled  : Bool
  cache_key      : String
  cache_get_text : String → Except ε (Option String)
  cache_set_text : String → String → Except ε Unit
  decode         : String → Option (List FusedResult)
  encode         : List FusedResult → String
  bm25_search    : Except ε (List Hit)
  vector_search  : Except ε (List Hit)

/-- `cache_get_json` from `redis_cache.py`: read the raw text (an error
raised by the Redis client propagates — only `json.JSONDecodeError` is
caught), return `None` on a miss or on an undecodable payload. -/
def cache_get_json {ε : Type} (env : Env ε) (key : String) :
    Except ε (Option (List FusedResult)) :=
  match env.cache_get_text key with
  | Except.error e => Except.error e
  | Except.ok none => Except.ok none
  | Except.ok (some s) => Except.ok (env.decode s)

/-- `cache_set_json` from `redis_cache.py`: serialize and SET (errors from
the Redis client propagate out of this helper). -/
def cache_set_json {ε : Type} (env : Env ε) (key : String)
    (value : List FusedResult) : Except ε Unit :=
  env.cache_set_text key (env.encode value)

/-- Lines 41–106 of `HybridRetriever.search`, after the cache lookup: the
two backend calls (not wrapped in `try`; an error aborts the call), the
pure fusion, and the cache write wrapped in `try/except Exception: pass`
(lines 101–105), whose outcome is discarded either way. -/
def cacheWriteStep {ε : Type} (env : Env ε) (ranked : List FusedResult) :
    Except ε (List FusedResult) :=
  match (if env.cache_enabled then cache_set_json env env.cache_key ranked
         else Except.ok ()) with
  | Except.ok _ => Except.ok ranked
  | Except.error _ => Except.ok ranked

def searchRun {ε : Type} (env : Env ε) (hash : String → Int) (alpha : ℚ)
    (top_k : ℕ) : Except ε (List FusedResult) :=
  match env.bm25_search with
  | Except.error e => Except.error e
  | Except.ok bm25_results =>
    match env.vector_search with
    | Except.error e => Except.error e
    | Except.ok vector_results =>
      cacheWriteStep env (search hash bm25_results vector_results alpha top_k)

/-- `HybridRetriever.search` (lines 32–106) in the `Except ε` monad: the
cache lookup of line 36 is *not* wrapped in `try`, so an error from it
propagates; a cache hit returns early; otherwise the call proceeds as
`searchRun`. -/
def searchE {ε : Type} (env : Env ε) (hash : String → Int) (alpha : ℚ)
    (top_k : ℕ) : Except ε (List FusedResult) :=
  if env.cache_enabled then
    match cache_get_json env env.cache_key with
    | Except.error e => Except.error e
    | Except.ok (some cached) => Except.ok cached
    | Except.ok none => searchRun env hash alpha top_k
  else searchRun env hash alpha top_k

/-! ### Concrete fixtures (small backend results used in instance checks) -/

/-- A `hash` instance for concrete checks (any function works: the source's
`hash` is per-process anyway). -/
def hash0 : String → Int := fun s => (s.length : Int)

/-- A lexical hit with id `a`. -/
def hitA : Hit := { id := some "a", document := some "cat", metadata := [], score := some 10 }

/-- A lexical hit with id `b`. -/
def hitB : Hit := { id := some "b", document := some "dog", metadata := [], score := some 5 }

/-- A semantic hit with id `b`, richer document and metadata. -/
def hitBsem : Hit :=
  { id := some "b", document := some "doggo", metadata := [("src", "v")], score := some 9 }

/-- A hit with no id and no document (malformed). -/
def hitBare : Hit := { id := none, document := none, metadata := [], score := none }

/-- A semantic hit with id `b`, metadata but no document. -/
def hitBsem2 : Hit :=
  { id := some "b", document := none, metadata := [("src", "v")], score := some 9 }

/-- A hit with id `c` and raw score `2`. -/
def hitC : Hit := { id := some "c", document := none, metadata := [], score := some 2 }

/-- The fused row `search` produces for `hitA` alone at `alpha = 1/2`. -/
def fusedA : FusedResult :=
  { id := some "a", document := some "cat", metadata := [],
    bm25_score := 1, semantic_score := 0, score := 1/2 * 0 + (1 - 1/2) * 1 }

/-- The fused row `search` produces for `hitBsem` alone at `alpha = 1/2`. -/
def fusedBsem : FusedResult :=
  { id := some "b", document := some "doggo", metadata := [("src", "v")],
    bm25_score := 0, semantic_score := 1, score := 1/2 * 1 + (1 - 1/2) * 0 }

/-- An environment whose Redis GET raises while everything else works. -/
def envCacheReadFails : Env String :=
  { cache_enabled := true
    cache_key := "k"
    cache_get_text := fun _ => Except.error "redis down"
    cache_set_text := fun _ _ => Except.ok ()
    decode := fun _ => none
    encode := fun _ => ""
    bm25_search := Except.ok [hitA]
    vector_search := Except.ok [] }

/-- An environment whose Redis SET raises while everything else works. -/
def envCacheWriteFails : Env String :=
  { cache_enabled := true
    cache_key := "k"
    cache_get_text := fun _ => Except.ok none
    cache_set_text := fun _ _ => Except.error "redis down"
    decode := fun _ => none
    encode := fun _ => ""
    bm25_search := Except.ok [hitA]
    vector_search := Except.ok [] }

/-- An environment whose lexical backend raises (cache disabled). -/
def envBm25Fails : Env String :=
  { cache_enabled := false
    cache_key := "k"
    cache_get_text := fun _ => Except.ok none
    cache_set_text := fun _ _ => Except.ok ()
    decode := fun _ => none
    encode := fun _ => ""
    bm25_search := Except.error "es down"
    vector_search := Except.ok [] }

/-! ### Facts about Python-style `min`/`max` folds -/

theorem foldl_min_le_init (l : List ℚ) (a : ℚ) : l.foldl min a ≤ a := by
  induction l generalizing a with
  | nil => exact le_refl a
  | cons x xs ih =>
    calc (x :: xs).foldl min a = xs.foldl min (min a x) := rfl
    _ ≤ min a x := ih (min a x)
    _ ≤ a := min_le_left a x

theorem foldl_min_le_mem (l : List ℚ) (a : ℚ) {x : ℚ} (hx : x ∈ l) :
    l.foldl min a ≤ x := by
  induction l generalizing a with
  | nil => cases hx
  | cons y ys ih =>
    rcases List.mem_cons.mp hx with h | h
    · subst h
      calc (x :: ys).foldl min a = ys.foldl min (min a x) := rfl
      _ ≤ min a x := foldl_min_le_init ys (min a x)
      _ ≤ x := min_le_right a x
    · exact ih (min a y) h

theorem init_le_foldl_max (l : List ℚ) (a : ℚ) : a ≤ l.foldl max a := by
  induction l generalizing a with
  | nil => exact le_refl a
  | cons x xs ih =>
    calc a ≤ max a x := le_max_left a x
    _ ≤ xs.foldl max (max a x) := ih (max a x)
    _ = (x :: xs).foldl max a := rfl

theorem mem_le_foldl_max (l : List ℚ) (a : ℚ) {x : ℚ} (hx : x ∈ l) :
    x ≤ l.foldl max a := by
  induction l generalizing a with
  | nil => cases hx
  | cons y ys ih =>
    rcases List.mem_cons.mp hx with h | h
    · subst h
      calc x ≤ max a x := le_max_right a x
      _ ≤ ys.foldl max (max a x) := init_le_foldl_max ys (max a x)
      _ = (x :: ys).foldl max a := rfl
    · exact ih (max a y) h

theorem foldl_min_mem (l : List ℚ) (a : ℚ) :
    l.foldl min a = a ∨ l.foldl min a ∈ l := by
  induction l generalizing a with
  | nil => exact Or.inl rfl
  | cons x xs ih =>
    rcases ih (min a x) with h | h
    · rcases min_choice a x with hm | hm
      · exact Or.inl (by rw [show (x :: xs).foldl min a = xs.foldl min (min a x) from rfl, h, hm])
      · exact Or.inr (by
          rw [show (x :: xs).foldl min a = xs.foldl min (min a x) from rfl, h, hm]
          exact List.mem_cons_self x xs)
    · exact Or.inr (List.mem_cons_of_mem x h)

theorem foldl_max_mem (l : List ℚ) (a : ℚ) :
    l.foldl max a = a ∨ l.foldl max a ∈ l := by
  induction l generalizing a with
  | nil => exact Or.inl rfl
  | cons x xs ih =>
    rcases ih (max a x) with h | h
    · rcases max_choice a x with hm | hm
      · exact Or.inl (by rw [show (x :: xs).foldl max a = xs.foldl max (max a x) from rfl, h, hm])
      · exact Or.inr (by
          rw [show (x :: xs).foldl max a = xs.foldl max (max a x) from rfl, h, hm]
          exact List.mem_cons_self x xs)
    · exact Or.inr (List.mem_cons_of_mem x h)

/-- If every element of `l` equals `a`, the Python `min` fold returns `a`. -/
theorem foldl_min_of_all_eq {l : List ℚ} {a : ℚ} (h : ∀ x ∈ l, x = a) :
    l.foldl min a = a := by
  rcases foldl_min_mem l a with hm | hm
  · exact hm
  · exact h _ hm

/-- If every element of `l` equals `a`, the Python `max` fold returns `a`. -/
theorem foldl_max_of_all_eq {l : List ℚ} {a : ℚ} (h : ∀ x ∈ l, x = a) :
    l.foldl max a = a := by
  rcases foldl_max_mem l a with hm | hm
  · exact hm
  · exact h _ hm

theorem isclose_self (a : ℚ) : isclose a a = true := by
  unfold isclose
  rw [sub_self, abs_zero]
  exact decide_eq_true (by positivity)

/-! ### Facts about `_min_max_normalize` -/

/-- Normalizing a single-element list yields `[1.0]`. -/
theorem _min_max_normalize_singleton (x : ℚ) : _min_max_normalize [x] = [1] := by
  rw [show _min_max_normalize [x] =
      if isclose ([].foldl min x) ([].foldl max x)
      then [x].map (fun _ => 1)
      else [x].map (fun s => (s - [].foldl min x) / ([].foldl max x - [].foldl min x))
    from rfl]
  simp only [List.foldl_nil]
  rw [if_pos (isclose_self x)]
  rfl

/-- Unfolding equation for `_min_max_normalize` on a non-empty list. -/
theorem _min_max_normalize_cons (s : ℚ) (rest : List ℚ) :
    _min_max_normalize (s :: rest) =
      if isclose (rest.foldl min s) (rest.foldl max s)
      then (s :: rest).map (fun _ => 1)
      else (s :: rest).map
        (fun x => (x - rest.foldl min s) / (rest.foldl max s - rest.foldl min s)) := rfl

/-- On a non-empty list, normalization is the elementwise map of `normVal`
at the list's Python `min` and `max`. -/
theorem _min_max_normalize_eq_map_normVal (s : ℚ) (rest : List ℚ) :
    _min_max_normalize (s :: rest) =
      (s :: rest).map (normVal (rest.foldl min s) (rest.foldl max s)) := by
  rw [_min_max_normalize_cons]
  by_cases hcl : isclose (rest.foldl min s) (rest.foldl max s) = true
  · rw [if_pos hcl]
    apply List.map_congr_left
    intro x _
    rw [normVal, if_pos hcl]
  · rw [if_neg hcl]
    apply List.map_congr_left
    intro x _
    rw [normVal, if_neg hcl]

/-- Every element of a normalization output lies in `[0, 1]`. -/
theorem _min_max_normalize_mem_unit {l : List ℚ} {y : ℚ}
    (hy : y ∈ _min_max_normalize l) : 0 ≤ y ∧ y ≤ 1 := by
  match l with
  | [] => cases hy
  | s :: rest =>
    rw [_min_max_normalize_cons] at hy
    by_cases hcl : isclose (rest.foldl min s) (rest.foldl max s) = true
    · rw [if_pos hcl, List.mem_map] at hy
      obtain ⟨x, _, hxy⟩ := hy
      rw [← hxy]
      exact ⟨zero_le_one, le_refl 1⟩
    · rw [if_neg hcl, List.mem_map] at hy
      obtain ⟨x, hx, hxy⟩ := hy
      rw [← hxy]
      have hmin : rest.foldl min s ≤ x := by
        rcases List.mem_cons.mp hx with h | h
        · exact h ▸ foldl_min_le_init rest s
        · exact foldl_min_le_mem rest s h
      have hmax : x ≤ rest.foldl max s := by
        rcases List.mem_cons.mp hx with h | h
        · exact h ▸ init_le_foldl_max rest s
        · exact mem_le_foldl_max rest s h
      have hlt : rest.foldl min s < rest.foldl max s := by
        rcases lt_or_ge (rest.foldl min s) (rest.foldl max s) with h | h
        · exact h
        · exfalso
          have heq : rest.foldl min s = rest.foldl max s :=
            le_antisymm (le_trans (foldl_min_le_init rest s) (init_le_foldl_max rest s)) h
          apply hcl
          rw [heq]
          exact isclose_self _
      have hden : 0 < rest.foldl max s - rest.foldl min s := sub_pos.mpr hlt
      constructor
      · exact div_nonneg (sub_nonneg.mpr hmin) (le_of_lt hden)
      · rw [div_le_one hden]
        exact sub_le_sub_right hmax _

theorem _min_max_normalize_length (l : List ℚ) :
    (_min_max_normalize l).length = l.length := by
  match l with
  | [] => rfl
  | s :: rest =>
    rw [_min_max_normalize_cons]
    by_cases hcl : isclose (rest.foldl min s) (rest.foldl max s) = true
    · rw [if_pos hcl, List.length_map]
    · rw [if_neg hcl, List.length_map]

/-- In `l.zip (l.map g)`, the second component of every pair is `g` of the
first. -/
theorem snd_eq_of_mem_zip_map {l : List ℚ} {g : ℚ → ℚ} {x y : ℚ}
    (h : (x, y) ∈ l.zip (l.map g)) : y = g x := by
  induction l with
  | nil => cases h
  | cons a t ih =>
    rw [List.map_cons, List.zip_cons_cons] at h
    rcases List.mem_cons.mp h with h | h
    · rw [Prod.mk.injEq] at h
      obtain ⟨h1, h2⟩ := h
      rw [h2, h1]
    · exact ih h

/-- **C1** (corrected: the degenerate all-`1.0` branch is entered whenever
Python's `min` and `max` of the list satisfy `math.isclose` — relative
tolerance `1e-9` — not only when all raw scores are equal).  For every list
of raw scores: normalizing `[]` yields `[]`; normalizing a single-element
list yields `[1.0]`; every normalized value lies in `[0.0, 1.0]`; for a
non-empty list, if all raw scores are equal (and more generally whenever
`isclose(min, max)`) every normalized score is `1.0`, and otherwise the
former maximum maps to `1.0` and the former minimum maps to `0.0`
(positionally: via `scores.zip` of the output). -/
theorem C1_min_max_normalize (scores : List ℚ) :
    (_min_max_normalize ([] : List ℚ) = [])
  ∧ (∀ x : ℚ, _min_max_normalize [x] = [1])
  ∧ (∀ y ∈ _min_max_normalize scores, 0 ≤ y ∧ y ≤ 1)
  ∧ (∀ s rest, scores = s :: rest →
      ((∀ x ∈ scores, ∀ x' ∈ scores, x = x') →
         _min_max_normalize scores = scores.map fun _ => 1)
    ∧ (isclose (rest.foldl min s) (rest.foldl max s) = true →
         _min_max_normalize scores = scores.map fun _ => 1)
    ∧ (isclose (rest.foldl min s) (rest.foldl max s) = false →
         ∀ x y : ℚ, (x, y) ∈ scores.zip (_min_max_normalize scores) →
           (x = rest.foldl max s → y = 1) ∧ (x = rest.foldl min s → y = 0))) := by
  refine ⟨rfl, ?_, ?_, ?_⟩
  · intro x
    rw [_min_max_normalize_cons]
    simp only [List.foldl_nil]
    rw [if_pos (isclose_self x)]
    rfl
  · intro y hy
    exact _min_max_normalize_mem_unit hy
  · intro s rest hsr
    subst hsr
    have hclose_case : isclose (rest.foldl min s) (rest.foldl max s) = true →
        _min_max_normalize (s :: rest) = (s :: rest).map fun _ => 1 := by
      intro hcl
      rw [_min_max_normalize_cons, if_pos hcl]
    refine ⟨?_, hclose_case, ?_⟩
    · intro hall
      apply hclose_case
      have hrest : ∀ x ∈ rest, x = s := fun x hx =>
        hall x (List.mem_cons_of_mem s hx) s (List.mem_cons_self s rest)
      rw [foldl_min_of_all_eq hrest, foldl_max_of_all_eq hrest]
      exact isclose_self s
    · intro hcl x y hxy
      have hne : rest.foldl min s ≠ rest.foldl max s := by
        intro heq
        rw [heq, isclose_self] at hcl
        cases hcl
      have hclₚ : ¬(isclose (rest.foldl min s) (rest.foldl max s) = true) := by
        rw [hcl]
        exact Bool.false_ne_true
      rw [_min_max_normalize_eq_map_normVal] at hxy
      have hy := snd_eq_of_mem_zip_map hxy
      constructor
      · intro hxmax
        rw [hy, hxmax, normVal, if_neg hclₚ]
        exact div_self (sub_ne_zero.mpr (Ne.symm hne))
      · intro hxmin
        rw [hy, hxmin, normVal, if_neg hclₚ, sub_self, zero_div]

/-- Witness for `C1_min_max_normalize`: concrete instances of the singleton,
bounds, and all-equal cases. -/
theorem C1_min_max_normalize_witness :
    _min_max_normalize [(5 : ℚ)] = [1]
  ∧ (∀ y ∈ _min_max_normalize [(0 : ℚ), 2], 0 ≤ y ∧ y ≤ 1)
  ∧ _min_max_normalize [(3 : ℚ), 3, 3] = [1, 1, 1] := by
  refine ⟨(C1_min_max_normalize []).2.1 5, (C1_min_max_normalize [0, 2]).2.2.1, ?_⟩
  have h := ((C1_min_max_normalize [3, 3, 3]).2.2.2 3 [3, 3] rfl).1
  have hall : ∀ x ∈ ([3, 3, 3] : List ℚ), ∀ x' ∈ ([3, 3, 3] : List ℚ), x = x' := by
    intro x hx x' hx'
    simp only [List.mem_cons, List.not_mem_nil, or_false] at hx hx'
    rcases hx with rfl | rfl | rfl <;> rcases hx' with rfl | rfl | rfl <;> rfl
  rw [h hall]
  rfl

/-- **C1** counterexample: the raw scores `[1, 1 + 10⁻¹²]` are not all
equal and their Python `min` is `1` (the first element), yet normalization
returns `[1.0, 1.0]`: the former minimum maps to `1.0`, not `0.0`, because
`math.isclose(min, max)` holds for these distinct values. -/
theorem C1_counterexample :
    _min_max_normalize [1, 1 + 1/1000000000000] = [1, 1]
  ∧ ((1 : ℚ) ≠ 1 + 1/1000000000000)
  ∧ ([(1 : ℚ) + 1/1000000000000].foldl min 1 = 1) := by
  have hlt : (1 : ℚ) < 1 + 1/1000000000000 := by norm_num
  have hmin : ([(1 : ℚ) + 1/1000000000000]).foldl min 1 = 1 := by
    simp only [List.foldl_cons, List.foldl_nil]
    exact min_eq_left hlt.le
  have hmax : ([(1 : ℚ) + 1/1000000000000]).foldl max 1 = 1 + 1/1000000000000 := by
    simp only [List.foldl_cons, List.foldl_nil]
    exact max_eq_right hlt.le
  have hcl : isclose 1 (1 + 1/1000000000000) = true := by
    unfold isclose
    apply decide_eq_true
    have e1 : |(1 : ℚ) - (1 + 1/1000000000000)| = 1/1000000000000 := by
      rw [abs_sub_comm, abs_of_nonneg (by norm_num : (0:ℚ) ≤ 1 + 1/1000000000000 - 1)]
      norm_num
    have e2 : max |(1 : ℚ)| |1 + 1/1000000000000| = 1 + 1/1000000000000 := by
      rw [abs_of_nonneg (by norm_num : (0:ℚ) ≤ 1),
        abs_of_nonneg (by norm_num : (0:ℚ) ≤ 1 + 1/1000000000000)]
      exact max_eq_right hlt.le
    rw [e1, e2]
    norm_num
  refine ⟨?_, by norm_num, hmin⟩
  rw [_min_max_normalize_cons, hmin, hmax, if_pos hcl]
  rfl

/-! ### Association-list (CPython dict) lemmas -/

/-- In a dict with distinct keys, the value at a key is unique. -/
theorem eq_of_mem_of_nodup_keys {α : Type} {m : List (String × α)}
    (h : (m.map Prod.fst).Nodup) {k : String} {a b : α}
    (ha : (k, a) ∈ m) (hb : (k, b) ∈ m) : a = b := by
  induction m with
  | nil => cases ha
  | cons p t ih =>
    rw [List.map_cons, List.nodup_cons] at h
    obtain ⟨hp, ht⟩ := h
    rcases List.mem_cons.mp ha with ha' | ha' <;> rcases List.mem_cons.mp hb with hb' | hb'
    · rw [← ha', Prod.mk.injEq] at hb'
      exact hb'.2.symm
    · exfalso
      apply hp
      rw [show p.1 = k from by rw [← ha']]
      simpa using List.mem_map_of_mem Prod.fst hb'
    · exfalso
      apply hp
      rw [show p.1 = k from by rw [← hb']]
      simpa using List.mem_map_of_mem Prod.fst ha'
    · exact ih ht ha' hb'

theorem upsert_keys {α : Type} (k : String) (v : α) (m : List (String × α)) :
    (upsert k v m).map Prod.fst =
      if k ∈ m.map Prod.fst then m.map Prod.fst else m.map Prod.fst ++ [k] := by
  unfold upsert
  by_cases h : k ∈ m.map Prod.fst
  · rw [if_pos h, if_pos h, List.map_map]
    apply List.map_congr_left
    intro p _
    simp only [Function.comp_apply]
    by_cases hp : p.1 = k
    · rw [if_pos hp]
      exact hp.symm
    · rw [if_neg hp]
  · rw [if_neg h, if_neg h, List.map_append]
    rfl

theorem mem_upsert_keys {α : Type} {j k : String} {v : α} {m : List (String × α)} :
    j ∈ (upsert k v m).map Prod.fst ↔ j ∈ m.map Prod.fst ∨ j = k := by
  rw [upsert_keys]
  by_cases h : k ∈ m.map Prod.fst
  · rw [if_pos h]
    constructor
    · exact Or.inl
    · rintro (hj | rfl)
      · exact hj
      · exact h
  · rw [if_neg h, List.mem_append, List.mem_singleton]

theorem upsert_keys_nodup {α : Type} {k : String} {v : α} {m : List (String × α)}
    (h : (m.map Prod.fst).Nodup) : ((upsert k v m).map Prod.fst).Nodup := by
  rw [upsert_keys]
  by_cases hk : k ∈ m.map Prod.fst
  · rw [if_pos hk]
    exact h
  · rw [if_neg hk]
    refine List.Nodup.append h (List.nodup_singleton k) ?_
    intro a ha hb
    rw [List.mem_singleton] at hb
    rw [hb] at ha
    exact hk ha

theorem mem_upsert {α : Type} {k j : String} {v w : α} {m : List (String × α)}
    (h : (j, w) ∈ upsert k v m) :
    (j ≠ k ∧ (j, w) ∈ m) ∨ (j = k ∧ w = v) := by
  unfold upsert at h
  by_cases hk : k ∈ m.map Prod.fst
  · rw [if_pos hk] at h
    obtain ⟨p, hp, hpe⟩ := List.mem_map.mp h
    by_cases hp1 : p.1 = k
    · rw [if_pos hp1, Prod.mk.injEq] at hpe
      exact Or.inr ⟨hpe.1.symm, hpe.2.symm⟩
    · rw [if_neg hp1] at hpe
      refine Or.inl ⟨?_, hpe ▸ hp⟩
      intro hj
      apply hp1
      rw [show p.1 = j from by rw [hpe]]
      exact hj
  · rw [if_neg hk, List.mem_append, List.mem_singleton] at h
    rcases h with h | h
    · refine Or.inl ⟨?_, h⟩
      intro hj
      apply hk
      rw [← hj]
      exact List.mem_map_of_mem Prod.fst h
    · rw [Prod.mk.injEq] at h
      exact Or.inr ⟨h.1, h.2⟩

theorem mem_upsert_of_ne {α : Type} {k j : String} {v w : α} {m : List (String × α)}
    (hne : j ≠ k) : (j, w) ∈ upsert k v m ↔ (j, w) ∈ m := by
  constructor
  · intro h
    rcases mem_upsert h with h | h
    · exact h.2
    · exact absurd h.1 hne
  · intro h
    unfold upsert
    by_cases hk : k ∈ m.map Prod.fst
    · rw [if_pos hk]
      have heq : (fun p : String × α => if p.1 = k then (k, v) else p) (j, w) = (j, w) := by
        show (if (j, w).1 = k then (k, v) else (j, w)) = (j, w)
        exact if_neg hne
      exact heq ▸ List.mem_map_of_mem _ h
    · rw [if_neg hk, List.mem_append]
      exact Or.inl h

/-! ### `buildMap` (dict-comprehension) lemmas -/

theorem foldl_upsert_mem {hash : String → Int} {pairs : List (Hit × ℚ)}
    {k : String} {rv : Hit × ℚ} :
    ∀ {m : List (String × (Hit × ℚ))},
      (k, rv) ∈ pairs.foldl (fun m rv => upsert (make_key hash rv.1) rv m) m →
      (k, rv) ∈ m ∨ (rv ∈ pairs ∧ k = make_key hash rv.1) := by
  induction pairs with
  | nil => exact fun h => Or.inl h
  | cons q rest ih =>
    intro m h
    rcases ih h with h' | h'
    · rcases mem_upsert h' with h'' | h''
      · exact Or.inl h''.2
      · refine Or.inr ⟨?_, ?_⟩
        · rw [h''.2]
          exact List.mem_cons_self q rest
        · rw [h''.1, h''.2]
    · exact Or.inr ⟨List.mem_cons_of_mem q h'.1, h'.2⟩

theorem foldl_upsert_keys_mem {hash : String → Int} {pairs : List (Hit × ℚ)}
    {j : String} :
    ∀ {m : List (String × (Hit × ℚ))},
      (j ∈ (pairs.foldl (fun m rv => upsert (make_key hash rv.1) rv m) m).map Prod.fst ↔
        j ∈ m.map Prod.fst ∨ j ∈ pairs.map (fun rv => make_key hash rv.1)) := by
  induction pairs with
  | nil =>
    intro m
    simp only [List.foldl_nil, List.map_nil, List.not_mem_nil, or_false]
  | cons q rest ih =>
    intro m
    rw [List.foldl_cons, ih, mem_upsert_keys, List.map_cons, List.mem_cons]
    tauto

theorem foldl_upsert_keys_nodup {hash : String → Int} {pairs : List (Hit × ℚ)} :
    ∀ {m : List (String × (Hit × ℚ))}, (m.map Prod.fst).Nodup →
      ((pairs.foldl (fun m rv => upsert (make_key hash rv.1) rv m) m).map Prod.fst).Nodup := by
  induction pairs with
  | nil => exact fun h => h
  | cons q rest ih =>
    intro m hm
    exact ih (upsert_keys_nodup hm)

/-- Every entry of `buildMap` stores a processed `(hit, score)` pair under
its `make_key`. -/
theorem mem_buildMap {hash : String → Int} {pairs : List (Hit × ℚ)}
    {k : String} {rv : Hit × ℚ} (h : (k, rv) ∈ buildMap hash pairs) :
    rv ∈ pairs ∧ k = make_key hash rv.1 := by
  rcases foldl_upsert_mem h with h' | h'
  · cases h'
  · exact h'

/-- The keys of `buildMap` are exactly the `make_key`s of the processed
pairs. -/
theorem buildMap_keys_mem {hash : String → Int} {pairs : List (Hit × ℚ)}
    {j : String} :
    j ∈ (buildMap hash pairs).map Prod.fst ↔
      j ∈ pairs.map (fun rv => make_key hash rv.1) := by
  rw [buildMap, foldl_upsert_keys_mem]
  simp only [List.map_nil, List.not_mem_nil, false_or]

theorem buildMap_keys_nodup {hash : String → Int} {pairs : List (Hit × ℚ)} :
    ((buildMap hash pairs).map Prod.fst).Nodup :=
  foldl_upsert_keys_nodup List.nodup_nil

/-! ### `foldVector` (second merge loop) lemmas -/

theorem vectorStep_keys (m : List (String × MergedItem)) (p : String × (Hit × ℚ)) :
    (vectorStep m p).map Prod.fst =
      if p.1 ∈ m.map Prod.fst then m.map Prod.fst else m.map Prod.fst ++ [p.1] := by
  unfold vectorStep
  by_cases h : p.1 ∈ m.map Prod.fst
  · rw [if_pos h, if_pos h, List.map_map]
    apply List.map_congr_left
    intro q _
    simp only [Function.comp_apply]
    by_cases hq : q.1 = p.1
    · rw [if_pos hq]
    · rw [if_neg hq]
  · rw [if_neg h, if_neg h, List.map_append]
    rfl

theorem mem_vectorStep_keys {m : List (String × MergedItem)} {p : String × (Hit × ℚ)}
    {j : String} :
    j ∈ (vectorStep m p).map Prod.fst ↔ j ∈ m.map Prod.fst ∨ j = p.1 := by
  rw [vectorStep_keys]
  by_cases h : p.1 ∈ m.map Prod.fst
  · rw [if_pos h]
    constructor
    · exact Or.inl
    · rintro (hj | rfl)
      · exact hj
      · exact h
  · rw [if_neg h, List.mem_append, List.mem_singleton]

theorem vectorStep_keys_nodup {m : List (String × MergedItem)} {p : String × (Hit × ℚ)}
    (h : (m.map Prod.fst).Nodup) : ((vectorStep m p).map Prod.fst).Nodup := by
  rw [vectorStep_keys]
  by_cases hk : p.1 ∈ m.map Prod.fst
  · rw [if_pos hk]
    exact h
  · rw [if_neg hk]
    refine List.Nodup.append h (List.nodup_singleton p.1) ?_
    intro a ha hb
    rw [List.mem_singleton] at hb
    rw [hb] at ha
    exact hk ha

theorem mem_vectorStep_of_ne {m : List (String × MergedItem)} {p : String × (Hit × ℚ)}
    {k : String} {e : MergedItem} (hne : k ≠ p.1) :
    (k, e) ∈ vectorStep m p ↔ (k, e) ∈ m := by
  unfold vectorStep
  by_cases h : p.1 ∈ m.map Prod.fst
  · rw [if_pos h]
    constructor
    · intro hm
      obtain ⟨q, hq, hqe⟩ := List.mem_map.mp hm
      by_cases hq1 : q.1 = p.1
      · rw [if_pos hq1, Prod.mk.injEq] at hqe
        exact absurd (hqe.1.symm.trans hq1) hne
      · rw [if_neg hq1] at hqe
        exact hqe ▸ hq
    · intro hm
      have heq : (fun q : String × MergedItem =>
          if q.1 = p.1 then (q.1, updateMerged q.2 p.2.1 p.2.2) else q) (k, e) = (k, e) := by
        show (if (k, e).1 = p.1
          then ((k, e).1, updateMerged (k, e).2 p.2.1 p.2.2) else (k, e)) = (k, e)
        exact if_neg hne
      exact heq ▸ List.mem_map_of_mem _ hm
  · rw [if_neg h, List.mem_append, List.mem_singleton]
    constructor
    · rintro (hm | hm)
      · exact hm
      · rw [Prod.mk.injEq] at hm
        exact absurd hm.1 hne
    · exact Or.inl

theorem mem_vectorStep_cases {m : List (String × MergedItem)} {p : String × (Hit × ℚ)}
    {k : String} {e : MergedItem} (h : (k, e) ∈ vectorStep m p) :
    (k, e) ∈ m
    ∨ (k = p.1 ∧ ((∃ e₀, (k, e₀) ∈ m ∧ e = updateMerged e₀ p.2.1 p.2.2)
                    ∨ e = newSemEntry p.2.1 p.2.2)) := by
  unfold vectorStep at h
  by_cases hk : p.1 ∈ m.map Prod.fst
  · rw [if_pos hk] at h
    obtain ⟨q, hq, hqe⟩ := List.mem_map.mp h
    by_cases hq1 : q.1 = p.1
    · rw [if_pos hq1, Prod.mk.injEq] at hqe
      refine Or.inr ⟨hqe.1.symm.trans hq1, Or.inl ⟨q.2, ?_, hqe.2.symm⟩⟩
      rw [show k = q.1 from hqe.1.symm, Prod.mk.eta]
      exact hq
    · rw [if_neg hq1] at hqe
      exact Or.inl (hqe ▸ hq)
  · rw [if_neg hk, List.mem_append, List.mem_singleton] at h
    rcases h with h | h
    · exact Or.inl h
    · rw [Prod.mk.injEq] at h
      exact Or.inr ⟨h.1, Or.inr h.2⟩

theorem foldVector_keys_mem {vm : List (String × (Hit × ℚ))} {j : String} :
    ∀ {m : List (String × MergedItem)},
      (j ∈ (foldVector m vm).map Prod.fst ↔ j ∈ m.map Prod.fst ∨ j ∈ vm.map Prod.fst) := by
  induction vm with
  | nil =>
    intro m
    simp only [foldVector, List.foldl_nil, List.map_nil, List.not_mem_nil, or_false]
  | cons p rest ih =>
    intro m
    show j ∈ (foldVector (vectorStep m p) rest).map Prod.fst ↔ _
    rw [ih, mem_vectorStep_keys, List.map_cons, List.mem_cons]
    tauto

theorem foldVector_keys_nodup {vm : List (String × (Hit × ℚ))} :
    ∀ {m : List (String × MergedItem)}, (m.map Prod.fst).Nodup →
      ((foldVector m vm).map Prod.fst).Nodup := by
  induction vm with
  | nil => exact fun h => h
  | cons p rest ih =>
    intro m hm
    exact ih (vectorStep_keys_nodup hm)

theorem foldVector_mem_of_not_mem_keys {vm : List (String × (Hit × ℚ))}
    {k : String} {e : MergedItem} :
    ∀ {m : List (String × MergedItem)}, k ∉ vm.map Prod.fst →
      ((k, e) ∈ foldVector m vm ↔ (k, e) ∈ m) := by
  induction vm with
  | nil => exact fun _ => Iff.rfl
  | cons p rest ih =>
    intro m hk
    have hk1 : k ≠ p.1 := fun h => hk (by
      rw [List.map_cons]
      exact List.mem_cons.mpr (Or.inl h))
    have hk2 : k ∉ rest.map Prod.fst := fun h => hk (by
      rw [List.map_cons]
      exact List.mem_cons.mpr (Or.inr h))
    show (k, e) ∈ foldVector (vectorStep m p) rest ↔ _
    rw [ih hk2, mem_vectorStep_of_ne hk1]

/-- Invariant preservation for the second merge loop: a predicate holding
for all entries of `merged`, preserved by updates from vector-map entries
and holding for freshly inserted vector entries, holds for all entries of
the result. -/
theorem foldVector_forall {P : String → MergedItem → Prop} :
    ∀ {vm : List (String × (Hit × ℚ))} {m : List (String × MergedItem)},
      (∀ k e, (k, e) ∈ m → P k e) →
      (∀ k e rv, (k, rv) ∈ vm → P k e → P k (updateMerged e rv.1 rv.2)) →
      (∀ k rv, (k, rv) ∈ vm → P k (newSemEntry rv.1 rv.2)) →
      ∀ k e, (k, e) ∈ foldVector m vm → P k e := by
  intro vm
  induction vm with
  | nil => exact fun h0 _ _ k e h => h0 k e h
  | cons p rest ih =>
    intro m h0 hupd hnew k e h
    have h' : (k, e) ∈ foldVector (vectorStep m p) rest := h
    refine ih ?_ ?_ ?_ k e h'
    · intro k' e' hmem
      rcases mem_vectorStep_cases hmem with hm | ⟨hk, hc⟩
      · exact h0 k' e' hm
      · rcases hc with ⟨e₀, he₀, rfl⟩ | rfl
        · refine hupd k' e₀ p.2 ?_ (h0 k' e₀ he₀)
          rw [hk, Prod.mk.eta]
          exact List.mem_cons_self p rest
        · refine hnew k' p.2 ?_
          rw [hk, Prod.mk.eta]
          exact List.mem_cons_self p rest
    · exact fun k' e' rv hrv hP => hupd k' e' rv (List.mem_cons_of_mem p hrv) hP
    · exact fun k' rv hrv => hnew k' rv (List.mem_cons_of_mem p hrv)

/-- If key `k` carries `rv` in the vector map and `e₀` in `merged`
(both with distinct keys), the merged result carries the updated entry. -/
theorem foldVector_mem_update :
    ∀ {vm : List (String × (Hit × ℚ))} {m : List (String × MergedItem)}
      {k : String} {rv : Hit × ℚ} {e₀ : MergedItem},
      (m.map Prod.fst).Nodup → (vm.map Prod.fst).Nodup →
      (k, rv) ∈ vm → (k, e₀) ∈ m →
      (k, updateMerged e₀ rv.1 rv.2) ∈ foldVector m vm := by
  intro vm
  induction vm with
  | nil =>
    intro m k rv e₀ _ _ hkvm _
    cases hkvm
  | cons p rest ih =>
    intro m k rv e₀ hm hvm hkvm hkm
    rw [List.map_cons, List.nodup_cons] at hvm
    by_cases hk : k = p.1
    · have hp : p = (k, rv) := by
        rcases List.mem_cons.mp hkvm with h | h
        · exact h.symm
        · exfalso
          apply hvm.1
          rw [← hk]
          simpa using List.mem_map_of_mem Prod.fst h
      subst hp
      have hstep : (k, updateMerged e₀ rv.1 rv.2) ∈ vectorStep m (k, rv) := by
        unfold vectorStep
        rw [if_pos (show (k, rv).1 ∈ m.map Prod.fst from by
          simpa using List.mem_map_of_mem Prod.fst hkm)]
        refine List.mem_map.mpr ⟨(k, e₀), hkm, ?_⟩
        show (if (k, e₀).1 = (k, rv).1
          then ((k, e₀).1, updateMerged (k, e₀).2 (k, rv).2.1 (k, rv).2.2)
          else (k, e₀)) = (k, updateMerged e₀ rv.1 rv.2)
        rw [if_pos (show (k, e₀).1 = (k, rv).1 from rfl)]
      show (k, updateMerged e₀ rv.1 rv.2) ∈ foldVector (vectorStep m (k, rv)) rest
      rw [foldVector_mem_of_not_mem_keys hvm.1]
      exact hstep
    · have hkvm' : (k, rv) ∈ rest := by
        rcases List.mem_cons.mp hkvm with h | h
        · exact absurd (congrArg Prod.fst h) hk
        · exact h
      have hkm' : (k, e₀) ∈ vectorStep m p := (mem_vectorStep_of_ne hk).mpr hkm
      show (k, updateMerged e₀ rv.1 rv.2) ∈ foldVector (vectorStep m p) rest
      exact ih (vectorStep_keys_nodup hm) hvm.2 hkvm' hkm'

/-- If key `k` carries `rv` in the vector map but is absent from `merged`,
the merged result carries the fresh semantic-only entry. -/
theorem foldVector_mem_new :
    ∀ {vm : List (String × (Hit × ℚ))} {m : List (String × MergedItem)}
      {k : String} {rv : Hit × ℚ},
      (vm.map Prod.fst).Nodup → k ∉ m.map Prod.fst → (k, rv) ∈ vm →
      (k, newSemEntry rv.1 rv.2) ∈ foldVector m vm := by
  intro vm
  induction vm with
  | nil =>
    intro m k rv _ _ h
    cases h
  | cons p rest ih =>
    intro m k rv hvm hkm hkvm
    rw [List.map_cons, List.nodup_cons] at hvm
    by_cases hk : k = p.1
    · have hp : p = (k, rv) := by
        rcases List.mem_cons.mp hkvm with h | h
        · exact h.symm
        · exfalso
          apply hvm.1
          rw [← hk]
          simpa using List.mem_map_of_mem Prod.fst h
      subst hp
      have hstep : (k, newSemEntry rv.1 rv.2) ∈ vectorStep m (k, rv) := by
        unfold vectorStep
        rw [if_neg (show ¬((k, rv).1 ∈ m.map Prod.fst) from hkm)]
        rw [List.mem_append, List.mem_singleton]
        exact Or.inr rfl
      show (k, newSemEntry rv.1 rv.2) ∈ foldVector (vectorStep m (k, rv)) rest
      rw [foldVector_mem_of_not_mem_keys hvm.1]
      exact hstep
    · have hkvm' : (k, rv) ∈ rest := by
        rcases List.mem_cons.mp hkvm with h | h
        · exact absurd (congrArg Prod.fst h) hk
        · exact h
      have hkm' : k ∉ (vectorStep m p).map Prod.fst := by
        rw [mem_vectorStep_keys]
        rintro (h | h)
        · exact hkm h
        · exact hk h
      show (k, newSemEntry rv.1 rv.2) ∈ foldVector (vectorStep m p) rest
      exact ih hvm.2 hkm' hkvm'

/-! ### `seedBm25` and whole-pipeline lemmas -/

theorem seedBm25_keys (m : List (String × (Hit × ℚ))) :
    (seedBm25 m).map Prod.fst = m.map Prod.fst := by
  unfold seedBm25
  rw [List.map_map]
  rfl

theorem seedBm25_mem_of_mem {m : List (String × (Hit × ℚ))} {k : String}
    {rv : Hit × ℚ} (h : (k, rv) ∈ m) :
    (k, seedEntry rv.1 rv.2) ∈ seedBm25 m :=
  List.mem_map.mpr ⟨(k, rv), h, rfl⟩

theorem mem_seedBm25 {m : List (String × (Hit × ℚ))} {k : String} {e : MergedItem}
    (h : (k, e) ∈ seedBm25 m) :
    ∃ rv : Hit × ℚ, (k, rv) ∈ m ∧ e = seedEntry rv.1 rv.2 := by
  obtain ⟨p, hp, hpe⟩ := List.mem_map.mp h
  rw [Prod.mk.injEq] at hpe
  refine ⟨p.2, ?_, hpe.2.symm⟩
  rw [← hpe.1, Prod.mk.eta]
  exact hp

/-- The `make_key`s of the zipped `(hit, normalized score)` pairs are the
`make_key`s of the hits (normalization preserves length). -/
theorem zipped_keys (hash : String → Int) (results : List Hit) :
    (results.zip (_min_max_normalize (results.map rawScore))).map
        (fun rv => make_key hash rv.1) = results.map (make_key hash) := by
  have hlen : results.length ≤ (_min_max_normalize (results.map rawScore)).length := by
    rw [_min_max_normalize_length, List.length_map]
  conv_rhs =>
    rw [← List.map_fst_zip results (_min_max_normalize (results.map rawScore)) hlen]
  rw [List.map_map]
  rfl

theorem bm25Map_keys_mem {hash : String → Int} {bm25_results : List Hit} {j : String} :
    j ∈ (bm25Map hash bm25_results).map Prod.fst ↔
      j ∈ bm25_results.map (make_key hash) := by
  unfold bm25Map
  rw [buildMap_keys_mem, zipped_keys]

theorem vectorMap_keys_mem {hash : String → Int} {vector_results : List Hit} {j : String} :
    j ∈ (vectorMap hash vector_results).map Prod.fst ↔
      j ∈ vector_results.map (make_key hash) := by
  unfold vectorMap
  rw [buildMap_keys_mem, zipped_keys]

theorem mergedMap_keys_nodup (hash : String → Int) (bm25_results vector_results : List Hit) :
    ((mergedMap hash bm25_results vector_results).map Prod.fst).Nodup := by
  unfold mergedMap
  apply foldVector_keys_nodup
  rw [seedBm25_keys]
  exact buildMap_keys_nodup

theorem mergedMap_keys_mem {hash : String → Int} {bm25_results vector_results : List Hit}
    {j : String} :
    j ∈ (mergedMap hash bm25_results vector_results).map Prod.fst ↔
      j ∈ bm25_results.map (make_key hash) ∨ j ∈ vector_results.map (make_key hash) := by
  unfold mergedMap
  rw [foldVector_keys_mem, seedBm25_keys, bm25Map_keys_mem, vectorMap_keys_mem]

/-- The merged dict has exactly one entry per distinct merge key. -/
theorem mergedMap_length (hash : String → Int) (bm25_results vector_results : List Hit) :
    (mergedMap hash bm25_results vector_results).length =
      (distinctKeys hash bm25_results vector_results).length := by
  rw [← List.length_map (mergedMap hash bm25_results vector_results) Prod.fst]
  have hnd1 := mergedMap_keys_nodup hash bm25_results vector_results
  have hnd2 : (distinctKeys hash bm25_results vector_results).Nodup := List.nodup_dedup _
  have hmem : ∀ a, a ∈ (mergedMap hash bm25_results vector_results).map Prod.fst ↔
      a ∈ distinctKeys hash bm25_results vector_results := by
    intro a
    rw [mergedMap_keys_mem]
    unfold distinctKeys
    rw [List.mem_dedup, List.mem_append]
  exact ((List.perm_ext_iff_of_nodup hnd1 hnd2).mpr hmem).length_eq

theorem fusedList_keys (hash : String → Int) (bm25_results vector_results : List Hit)
    (alpha : ℚ) :
    (fusedList hash bm25_results vector_results alpha).map Prod.fst =
      (mergedMap hash bm25_results vector_results).map Prod.fst := by
  unfold fusedList
  rw [List.map_map]
  rfl

theorem fusedList_length (hash : String → Int) (bm25_results vector_results : List Hit)
    (alpha : ℚ) :
    (fusedList hash bm25_results vector_results alpha).length =
      (mergedMap hash bm25_results vector_results).length := by
  unfold fusedList
  rw [List.length_map]

/-- **C4**: for every pair of backend result lists and every `top_k`, the
list returned by `search` is sorted in non-increasing order of the combined
score, and its length equals `min(top_k, number of distinct merge keys)`. -/
theorem C4_sorted_and_truncated (hash : String → Int)
    (bm25_results vector_results : List Hit) (alpha : ℚ) (top_k : ℕ) :
    (search hash bm25_results vector_results alpha top_k).Sorted
      (fun a b => b.score ≤ a.score)
  ∧ (search hash bm25_results vector_results alpha top_k).length =
      min top_k (distinctKeys hash bm25_results vector_results).length := by
  constructor
  · have hsorted :=
      List.sorted_insertionSort scoreGE (fusedList hash bm25_results vector_results alpha)
    have htake : List.Sorted scoreGE
        ((List.insertionSort scoreGE
          (fusedList hash bm25_results vector_results alpha)).take top_k) :=
      List.Pairwise.sublist (List.take_sublist _ _) hsorted
    show ((rankedKeyed hash bm25_results vector_results alpha top_k).map Prod.snd).Pairwise _
    rw [List.pairwise_map]
    exact htake
  · show ((rankedKeyed hash bm25_results vector_results alpha top_k).map Prod.snd).length = _
    rw [List.length_map]
    unfold rankedKeyed
    rw [List.length_take, (List.perm_insertionSort scoreGE _).length_eq,
      fusedList_length, mergedMap_length]

/-- **C3**: every distinct merge key appearing in either backend list
appears exactly once among the merged entries (no key dropped, none
duplicated), keys not appearing are absent, and whenever `top_k` is at
least the number of distinct merge keys, every such key appears exactly
once in the returned (keyed) output. -/
theorem C3_merge_completeness (hash : String → Int)
    (bm25_results vector_results : List Hit) (alpha : ℚ) (top_k : ℕ) :
    (∀ k, (k ∈ bm25_results.map (make_key hash) ∨ k ∈ vector_results.map (make_key hash)) →
       ((mergedMap hash bm25_results vector_results).map Prod.fst).count k = 1)
  ∧ (∀ k, ¬(k ∈ bm25_results.map (make_key hash) ∨ k ∈ vector_results.map (make_key hash)) →
       ((mergedMap hash bm25_results vector_results).map Prod.fst).count k = 0)
  ∧ ((distinctKeys hash bm25_results vector_results).length ≤ top_k →
       ∀ k, (k ∈ bm25_results.map (make_key hash) ∨ k ∈ vector_results.map (make_key hash)) →
         ((rankedKeyed hash bm25_results vector_results alpha top_k).map Prod.fst).count k
           = 1) := by
  refine ⟨?_, ?_, ?_⟩
  · intro k hk
    exact List.count_eq_one_of_mem (mergedMap_keys_nodup hash bm25_results vector_results)
      (mergedMap_keys_mem.mpr hk)
  · intro k hk
    exact List.count_eq_zero.mpr (fun hmem => hk (mergedMap_keys_mem.mp hmem))
  · intro htop k hk
    have hlen : (List.insertionSort scoreGE
        (fusedList hash bm25_results vector_results alpha)).length ≤ top_k := by
      rw [(List.perm_insertionSort scoreGE _).length_eq, fusedList_length, mergedMap_length]
      exact htop
    have htail : rankedKeyed hash bm25_results vector_results alpha top_k =
        List.insertionSort scoreGE (fusedList hash bm25_results vector_results alpha) := by
      unfold rankedKeyed
      exact List.take_of_length_le hlen
    rw [htail]
    have hperm : List.Perm
        ((List.insertionSort scoreGE
          (fusedList hash bm25_results vector_results alpha)).map Prod.fst)
        ((mergedMap hash bm25_results vector_results).map Prod.fst) := by
      rw [← fusedList_keys hash bm25_results vector_results alpha]
      exact (List.perm_insertionSort scoreGE _).map Prod.fst
    rw [hperm.count_eq]
    exact List.count_eq_one_of_mem (mergedMap_keys_nodup hash bm25_results vector_results)
      (mergedMap_keys_mem.mpr hk)

/-! ### Invariants of the merged entries -/

/-- Both component scores of every merged entry lie in `[0, 1]`. -/
theorem mergedMap_entry_bounds {hash : String → Int} {bm25_results vector_results : List Hit}
    {k : String} {e : MergedItem}
    (h : (k, e) ∈ mergedMap hash bm25_results vector_results) :
    (0 ≤ e.bm25 ∧ e.bm25 ≤ 1) ∧ (0 ≤ e.semantic ∧ e.semantic ≤ 1) := by
  unfold mergedMap at h
  refine foldVector_forall
    (P := fun _ e => (0 ≤ e.bm25 ∧ e.bm25 ≤ 1) ∧ (0 ≤ e.semantic ∧ e.semantic ≤ 1))
    ?_ ?_ ?_ k e h
  · intro k' e' he'
    obtain ⟨rv, hrv, rfl⟩ := mem_seedBm25 he'
    have hpair := mem_buildMap hrv
    have hsnd : rv.2 ∈ _min_max_normalize (bm25_results.map rawScore) :=
      (List.of_mem_zip (by rw [Prod.mk.eta]; exact hpair.1)).2
    have hb := _min_max_normalize_mem_unit hsnd
    exact ⟨hb, ⟨le_refl 0, zero_le_one⟩⟩
  · intro k' e' rv hrv hP
    have hpair := mem_buildMap hrv
    have hsnd : rv.2 ∈ _min_max_normalize (vector_results.map rawScore) :=
      (List.of_mem_zip (by rw [Prod.mk.eta]; exact hpair.1)).2
    have hb := _min_max_normalize_mem_unit hsnd
    exact ⟨hP.1, ⟨le_max_of_le_left hP.2.1, max_le hP.2.2 hb.2⟩⟩
  · intro k' rv hrv
    have hpair := mem_buildMap hrv
    have hsnd : rv.2 ∈ _min_max_normalize (vector_results.map rawScore) :=
      (List.of_mem_zip (by rw [Prod.mk.eta]; exact hpair.1)).2
    have hb := _min_max_normalize_mem_unit hsnd
    exact ⟨⟨le_refl 0, zero_le_one⟩, hb⟩

/-- A merged entry whose key is absent from the BM25 results has
`bm25 = 0.0`. -/
theorem mergedMap_bm25_zero {hash : String → Int} {bm25_results vector_results : List Hit}
    {k : String} {e : MergedItem}
    (h : (k, e) ∈ mergedMap hash bm25_results vector_results)
    (hk : k ∉ bm25_results.map (make_key hash)) : e.bm25 = 0 := by
  unfold mergedMap at h
  refine (foldVector_forall
    (P := fun k e => k ∉ bm25_results.map (make_key hash) → e.bm25 = 0) ?_ ?_ ?_ k e h) hk
  · intro k' e' he' hk'
    exfalso
    apply hk'
    have hmem : k' ∈ (seedBm25 (bm25Map hash bm25_results)).map Prod.fst := by
      simpa using List.mem_map_of_mem Prod.fst he'
    rw [seedBm25_keys] at hmem
    exact bm25Map_keys_mem.mp hmem
  · intro k' e' rv _ hP hk'
    exact hP hk'
  · intro k' rv _ _
    rfl

/-- A merged entry whose key is absent from the vector results has
`semantic = 0.0`. -/
theorem mergedMap_semantic_zero {hash : String → Int}
    {bm25_results vector_results : List Hit} {k : String} {e : MergedItem}
    (h : (k, e) ∈ mergedMap hash bm25_results vector_results)
    (hk : k ∉ vector_results.map (make_key hash)) : e.semantic = 0 := by
  unfold mergedMap at h
  refine (foldVector_forall
    (P := fun k e => k ∉ vector_results.map (make_key hash) → e.semantic = 0)
    ?_ ?_ ?_ k e h) hk
  · intro k' e' he' _
    obtain ⟨rv, _, rfl⟩ := mem_seedBm25 he'
    rfl
  · intro k' e' rv hrv _ hk'
    exfalso
    apply hk'
    have hmem : k' ∈ (vectorMap hash vector_results).map Prod.fst := by
      simpa using List.mem_map_of_mem Prod.fst hrv
    exact vectorMap_keys_mem.mp hmem
  · intro k' rv hrv hk'
    exfalso
    apply hk'
    have hmem : k' ∈ (vectorMap hash vector_results).map Prod.fst := by
      simpa using List.mem_map_of_mem Prod.fst hrv
    exact vectorMap_keys_mem.mp hmem

/-- **C2**: every merged entry's final score is
`alpha * semantic_score + (1 - alpha) * bm25_score`, where `bm25_score` is
`0.0` for keys absent from the lexical results and `semantic_score` is
`0.0` for keys absent from the semantic results; consequently, whenever
`alpha ∈ [0, 1]`, every returned `FusedResult` score lies in `[0.0, 1.0]`. -/
theorem C2_score_formula_and_bounds (hash : String → Int)
    (bm25_results vector_results : List Hit) (alpha : ℚ) (top_k : ℕ) :
    (∀ p ∈ fusedList hash bm25_results vector_results alpha,
        p.2.score = alpha * p.2.semantic_score + (1 - alpha) * p.2.bm25_score
      ∧ (p.1 ∉ bm25_results.map (make_key hash) → p.2.bm25_score = 0)
      ∧ (p.1 ∉ vector_results.map (make_key hash) → p.2.semantic_score = 0))
  ∧ (0 ≤ alpha → alpha ≤ 1 →
      ∀ r ∈ search hash bm25_results vector_results alpha top_k,
        0 ≤ r.score ∧ r.score ≤ 1) := by
  constructor
  · intro p hp
    obtain ⟨q, hq, rfl⟩ := List.mem_map.mp hp
    have hq' : (q.1, q.2) ∈ mergedMap hash bm25_results vector_results := by
      rw [Prod.mk.eta]
      exact hq
    refine ⟨rfl, ?_, ?_⟩
    · intro hk
      exact mergedMap_bm25_zero hq' hk
    · intro hk
      exact mergedMap_semantic_zero hq' hk
  · intro h0 h1 r hr
    obtain ⟨p, hp, rfl⟩ := List.mem_map.mp hr
    have hp' : p ∈ List.insertionSort scoreGE
        (fusedList hash bm25_results vector_results alpha) :=
      (List.take_sublist _ _).subset hp
    have hp'' : p ∈ fusedList hash bm25_results vector_results alpha := by
      rw [← List.mem_insertionSort scoreGE (l := fusedList hash bm25_results vector_results alpha)]
      exact hp'
    obtain ⟨q, hq, rfl⟩ := List.mem_map.mp hp''
    have hq' : (q.1, q.2) ∈ mergedMap hash bm25_results vector_results := by
      rw [Prod.mk.eta]
      exact hq
    have hb := mergedMap_entry_bounds hq'
    constructor
    · show 0 ≤ alpha * q.2.semantic + (1 - alpha) * q.2.bm25
      have e1 := mul_nonneg h0 hb.2.1
      have e2 := mul_nonneg (by linarith : (0:ℚ) ≤ 1 - alpha) hb.1.1
      linarith
    · show alpha * q.2.semantic + (1 - alpha) * q.2.bm25 ≤ 1
      have e1 : alpha * q.2.semantic ≤ alpha * 1 :=
        mul_le_mul_of_nonneg_left hb.2.2 h0
      have e2 : (1 - alpha) * q.2.bm25 ≤ (1 - alpha) * 1 :=
        mul_le_mul_of_nonneg_left hb.1.2 (by linarith)
      linarith

/-- Witness for `C3_merge_completeness`: one lexical hit with id `a`, no
vector hits. -/
theorem C3_merge_completeness_witness :
    ((mergedMap hash0 [hitA] []).map Prod.fst).count "a" = 1
  ∧ ((mergedMap hash0 [hitA] []).map Prod.fst).count "zzz" = 0
  ∧ ((rankedKeyed hash0 [hitA] [] (1/2) 10).map Prod.fst).count "a" = 1 := by
  have h := C3_merge_completeness hash0 [hitA] [] (1/2) 10
  have hmem : "a" ∈ [hitA].map (make_key hash0) ∨
      "a" ∈ ([] : List Hit).map (make_key hash0) := by
    left
    simp [make_key, hitA]
  have hnot : ¬("zzz" ∈ [hitA].map (make_key hash0) ∨
      "zzz" ∈ ([] : List Hit).map (make_key hash0)) := by
    simp [make_key, hitA, hash0]
  have hlen : (distinctKeys hash0 [hitA] []).length ≤ 10 := by
    simp [distinctKeys, make_key, hitA, hash0]
  exact ⟨h.1 "a" hmem, h.2.1 "zzz" hnot, h.2.2 hlen "a" hmem⟩

/-- Witness for `C2_score_formula_and_bounds`: the vector-only hit gets
`bm25_score = 0`, and a concrete returned row has its score in `[0, 1]`. -/
theorem C2_score_formula_and_bounds_witness :
    fusedBsem.bm25_score = 0 ∧ (0 ≤ fusedA.score ∧ fusedA.score ≤ 1) := by
  constructor
  · refine ((C2_score_formula_and_bounds hash0 [] [hitBsem] (1/2) 10).1
      ("b", fusedBsem) ?_).2.1 ?_
    · norm_num [fusedList, toFused, mergedMap, bm25Map, vectorMap, buildMap, seedBm25,
        foldVector, vectorStep, upsert, make_key, rawScore, seedEntry, updateMerged,
        newSemEntry, hitBsem, hash0, fusedBsem, _min_max_normalize, isclose_self]
      simp
    · simp
  · exact (C2_score_formula_and_bounds hash0 [hitA] [] (1/2) 10).2 (by norm_num)
      (by norm_num) fusedA
      (by norm_num [search, rankedKeyed, fusedList, toFused, mergedMap, bm25Map, vectorMap,
        buildMap, seedBm25, foldVector, vectorStep, upsert, make_key, rawScore, seedEntry,
        updateMerged, newSemEntry, hitA, hash0, fusedA, _min_max_normalize, isclose_self,
        List.insertionSort])

/-! ### Sort congruence (the sort depends on the comparator only on the
list's elements) -/

theorem orderedInsert_congr {α : Type} (r₁ r₂ : α → α → Prop)
    [DecidableRel r₁] [DecidableRel r₂] (a : α) (l : List α)
    (h : ∀ b ∈ l, (r₁ a b ↔ r₂ a b)) :
    List.orderedInsert r₁ a l = List.orderedInsert r₂ a l := by
  induction l with
  | nil => rfl
  | cons b t ih =>
    rw [List.orderedInsert, List.orderedInsert]
    by_cases hr : r₁ a b
    · rw [if_pos hr, if_pos ((h b (List.mem_cons_self b t)).mp hr)]
    · rw [if_neg hr, if_neg (fun hc => hr ((h b (List.mem_cons_self b t)).mpr hc)),
        ih (fun c hc => h c (List.mem_cons_of_mem b hc))]

theorem insertionSort_congr {α : Type} (r₁ r₂ : α → α → Prop)
    [DecidableRel r₁] [DecidableRel r₂] (l : List α)
    (h : ∀ a ∈ l, ∀ b ∈ l, (r₁ a b ↔ r₂ a b)) :
    List.insertionSort r₁ l = List.insertionSort r₂ l := by
  induction l with
  | nil => rfl
  | cons a t ih =>
    rw [List.insertionSort, List.insertionSort,
      ih (fun x hx y hy => h x (List.mem_cons_of_mem a hx) y (List.mem_cons_of_mem a hy))]
    apply orderedInsert_congr r₁ r₂
    intro b hb
    have hb' : b ∈ t := by
      rw [← List.mem_insertionSort r₂ (l := t)]
      exact hb
    exact h a (List.mem_cons_self a t) b (List.mem_cons_of_mem a hb')

/-- With `alpha = 0`, every fused row's combined score equals its
`bm25_score`. -/
theorem fusedList_score_alpha_zero {hash : String → Int}
    {bm25_results vector_results : List Hit} {p : String × FusedResult}
    (hp : p ∈ fusedList hash bm25_results vector_results 0) :
    p.2.score = p.2.bm25_score := by
  obtain ⟨q, hq, rfl⟩ := List.mem_map.mp hp
  show (0:ℚ) * q.2.semantic + (1 - 0) * q.2.bm25 = q.2.bm25
  ring

/-- With `alpha = 1`, every fused row's combined score equals its
`semantic_score`. -/
theorem fusedList_score_alpha_one {hash : String → Int}
    {bm25_results vector_results : List Hit} {p : String × FusedResult}
    (hp : p ∈ fusedList hash bm25_results vector_results 1) :
    p.2.score = p.2.semantic_score := by
  obtain ⟨q, hq, rfl⟩ := List.mem_map.mp hp
  show (1:ℚ) * q.2.semantic + (1 - 1) * q.2.bm25 = q.2.semantic
  ring

/-- **C5**: with `alpha = 0.0` the ranking produced by `search` is exactly
the (stable descending) ranking of the merged entries by `bm25_score`
alone, and with `alpha = 1.0` exactly the ranking by `semantic_score`
alone. -/
theorem C5_alpha_boundary (hash : String → Int)
    (bm25_results vector_results : List Hit) (top_k : ℕ) :
    search hash bm25_results vector_results 0 top_k =
      ((List.insertionSort bm25GE
        (fusedList hash bm25_results vector_results 0)).take top_k).map Prod.snd
  ∧ search hash bm25_results vector_results 1 top_k =
      ((List.insertionSort semanticGE
        (fusedList hash bm25_results vector_results 1)).take top_k).map Prod.snd := by
  constructor
  · show ((List.insertionSort scoreGE
        (fusedList hash bm25_results vector_results 0)).take top_k).map Prod.snd = _
    rw [insertionSort_congr scoreGE bm25GE (fusedList hash bm25_results vector_results 0)
      (fun a ha b hb => by
        show b.2.score ≤ a.2.score ↔ b.2.bm25_score ≤ a.2.bm25_score
        rw [fusedList_score_alpha_zero ha, fusedList_score_alpha_zero hb])]
  · show ((List.insertionSort scoreGE
        (fusedList hash bm25_results vector_results 1)).take top_k).map Prod.snd = _
    rw [insertionSort_congr scoreGE semanticGE
      (fusedList hash bm25_results vector_results 1)
      (fun a ha b hb => by
        show b.2.score ≤ a.2.score ↔ b.2.semantic_score ≤ a.2.semantic_score
        rw [fusedList_score_alpha_one ha, fusedList_score_alpha_one hb])]

/-- **C9**: for a merge key present in both backends' maps, the merged
entry's document is the semantic hit's document exactly when that document
is non-empty and strictly longer (by text length) than the lexical one, and
its metadata is the semantic hit's metadata when non-empty, else the
lexical hit's. -/
theorem C9_document_metadata_preference (hash : String → Int)
    (bm25_results vector_results : List Hit) (k : String)
    (rb rv : Hit) (nb nv : ℚ) (e : MergedItem)
    (hb : (k, (rb, nb)) ∈ bm25Map hash bm25_results)
    (hv : (k, (rv, nv)) ∈ vectorMap hash vector_results)
    (he : (k, e) ∈ mergedMap hash bm25_results vector_results) :
    e.document = (if (rv.document.getD "") ≠ "" ∧
        (rb.document.getD "").length < (rv.document.getD "").length
      then rv.document else rb.document)
  ∧ e.metadata = (if rv.metadata ≠ [] then rv.metadata else rb.metadata) := by
  have hseed : (k, seedEntry rb nb) ∈ seedBm25 (bm25Map hash bm25_results) :=
    seedBm25_mem_of_mem hb
  have hnods : ((seedBm25 (bm25Map hash bm25_results)).map Prod.fst).Nodup := by
    rw [seedBm25_keys]
    exact buildMap_keys_nodup
  have hupd : (k, updateMerged (seedEntry rb nb) (rv, nv).1 (rv, nv).2) ∈
      mergedMap hash bm25_results vector_results :=
    foldVector_mem_update hnods buildMap_keys_nodup hv hseed
  have heq :=
    eq_of_mem_of_nodup_keys (mergedMap_keys_nodup hash bm25_results vector_results) he hupd
  rw [heq]
  exact ⟨rfl, rfl⟩

/-- Witness for `C9_document_metadata_preference`: key `b` is served by both
backends; the semantic hit has no document (so the lexical document is
kept) and non-empty metadata (so the semantic metadata is preferred). -/
theorem C9_document_metadata_preference_witness :
    (updateMerged (seedEntry hitB 1) hitBsem2 1).document =
      (if (hitBsem2.document.getD "") ≠ "" ∧
          (hitB.document.getD "").length < (hitBsem2.document.getD "").length
        then hitBsem2.document else hitB.document)
  ∧ (updateMerged (seedEntry hitB 1) hitBsem2 1).metadata =
      (if hitBsem2.metadata ≠ [] then hitBsem2.metadata else hitB.metadata) := by
  apply C9_document_metadata_preference hash0 [hitB] [hitBsem2] "b" hitB hitBsem2 1 1
  · norm_num [bm25Map, buildMap, upsert, make_key, rawScore, hitB, hash0,
      _min_max_normalize_singleton]
    simp
  · norm_num [vectorMap, buildMap, upsert, make_key, rawScore, hitBsem2, hash0,
      _min_max_normalize_singleton]
    simp
  · norm_num [mergedMap, bm25Map, vectorMap, buildMap, seedBm25, foldVector, vectorStep,
      upsert, make_key, rawScore, seedEntry, updateMerged, newSemEntry, hitB, hitBsem2,
      hash0, _min_max_normalize_singleton]
    simp

/-- **C8**: the merge key is the hit's `id` when present and non-empty;
otherwise it is `str(hash(document text))` (the empty string standing in
for a missing document), a total, deterministic computation even for a hit
missing both `id` and `document`. -/
theorem C8_make_key (hash : String → Int) (r : Hit) :
    (∀ s : String, r.id = some s → s ≠ "" → make_key hash r = s)
  ∧ ((r.id = none ∨ r.id = some "") →
      make_key hash r = toString (hash (r.document.getD "")))
  ∧ (∀ md sc, make_key hash { id := none, document := none, metadata := md, score := sc }
      = toString (hash "")) := by
  refine ⟨?_, ?_, ?_⟩
  · intro s hs hne
    unfold make_key
    rw [hs]
    show (if s ≠ "" then s else toString (hash (r.document.getD ""))) = s
    exact if_pos hne
  · intro h
    unfold make_key
    rcases h with h | h <;> rw [h] <;> rfl
  · intro md sc
    rfl

/-- Witness for `C8_make_key`: concrete keys for an id-bearing hit and the
malformed hit. -/
theorem C8_make_key_witness :
    make_key hash0 hitA = "a" ∧ make_key hash0 hitBare = toString (hash0 "") := by
  constructor
  · exact (C8_make_key hash0 hitA).1 "a" rfl (by decide)
  · exact (C8_make_key hash0 hitBare).2.2 [] none

/-- **C10** counterexample: `hitBare` lacks a score and is read as raw
`0.0`; next to the single positive-score hit `hitB` (raw `5`) it forces the
raw minimum to `0.0`, yet `hitB`'s normalized score is `1.0` both without
the score-less hit (`[5] ↦ [1]`) and with it (`[0, 5] ↦ [0, 1]`): the other
hit's normalized score is *not* shifted, refuting "shifts every other
hit's normalized score". -/
theorem C10_counterexample :
    ([hitBare, hitB].map rawScore = [0, 5])
  ∧ ((0:ℚ) < 5)
  ∧ _min_max_normalize [0, 5] = [0, 1]
  ∧ _min_max_normalize [5] = [1] := by
  have hmin : ([(5:ℚ)]).foldl min 0 = 0 := by
    simp only [List.foldl_cons, List.foldl_nil]
    exact min_eq_left (by norm_num)
  have hmax : ([(5:ℚ)]).foldl max 0 = 5 := by
    simp only [List.foldl_cons, List.foldl_nil]
    exact max_eq_right (by norm_num)
  have hcl : isclose 0 5 = false := by
    unfold isclose
    apply decide_eq_false
    intro hc
    have e1 : |(0:ℚ) - 5| = 5 := by
      rw [abs_sub_comm, sub_zero, abs_of_nonneg (by norm_num : (0:ℚ) ≤ 5)]
    have e2 : max |(0:ℚ)| |(5:ℚ)| = 5 := by
      rw [abs_zero, abs_of_nonneg (by norm_num : (0:ℚ) ≤ 5)]
      exact max_eq_right (by norm_num)
    rw [e1, e2] at hc
    norm_num at hc
  refine ⟨?_, by norm_num, ?_, _min_max_normalize_singleton 5⟩
  · simp [rawScore, hitBare, hitB]
  · rw [_min_max_normalize_cons, hmin, hmax,
      if_neg (by rw [hcl]; exact Bool.false_ne_true)]
    norm_num

/-- **C10** (amended): a hit lacking a score field is treated as raw `0.0`
and participates in its list's min-max normalization like any other hit;
with all other raw scores positive it forces the list's minimum to `0.0`,
and it shifts the normalized score of every other hit whose raw score is
strictly below the list's maximum (the maximum's normalized score stays
`1.0`).  Positions are paired via `zip`; the Python `min`/`max` of a
non-empty list `s :: rest` are the folds `rest.foldl min s` /
`rest.foldl max s`. -/
theorem C10_missing_score (pre post : List Hit) (hm : Hit)
    (hmiss : hm.score = none)
    (hpos : ∀ x ∈ (pre ++ post).map rawScore, 0 < x) :
    ((pre ++ hm :: post).map rawScore = pre.map rawScore ++ 0 :: post.map rawScore)
  ∧ (∀ s rest, (pre ++ hm :: post).map rawScore = s :: rest → rest.foldl min s = 0)
  ∧ (∀ s rest, (pre ++ hm :: post).map rawScore = s :: rest →
     ∀ s' rest', (pre ++ post).map rawScore = s' :: rest' →
     ∀ x y y',
       (x, y) ∈ ((pre ++ hm :: post).map rawScore).zip
         (_min_max_normalize ((pre ++ hm :: post).map rawScore)) →
       (x, y') ∈ ((pre ++ post).map rawScore).zip
         (_min_max_normalize ((pre ++ post).map rawScore)) →
       x < rest'.foldl max s' → y ≠ y') := by
  have hz : rawScore hm = 0 := by
    show hm.score.getD 0 = 0
    rw [hmiss]
    rfl
  have h1 : (pre ++ hm :: post).map rawScore =
      pre.map rawScore ++ 0 :: post.map rawScore := by
    rw [List.map_append, List.map_cons, hz]
  have hraw_mem : ∀ x ∈ (pre ++ hm :: post).map rawScore,
      x = 0 ∨ x ∈ (pre ++ post).map rawScore := by
    intro x hx
    rw [h1, List.mem_append, List.mem_cons] at hx
    rw [List.map_append, List.mem_append]
    rcases hx with hx | hx | hx
    · exact Or.inr (Or.inl hx)
    · exact Or.inl hx
    · exact Or.inr (Or.inr hx)
  have hraw_nonneg : ∀ x ∈ (pre ++ hm :: post).map rawScore, 0 ≤ x := by
    intro x hx
    rcases hraw_mem x hx with rfl | hx'
    · exact le_refl 0
    · exact (hpos x hx').le
  have hzero_mem : (0:ℚ) ∈ (pre ++ hm :: post).map rawScore := by
    rw [h1, List.mem_append, List.mem_cons]
    exact Or.inr (Or.inl rfl)
  have h2 : ∀ s rest, (pre ++ hm :: post).map rawScore = s :: rest →
      rest.foldl min s = 0 := by
    intro s rest hsr
    apply le_antisymm
    · rw [hsr] at hzero_mem
      rcases List.mem_cons.mp hzero_mem with h0 | h0
      · rw [h0]
        exact foldl_min_le_init rest s
      · exact foldl_min_le_mem rest s h0
    · rcases foldl_min_mem rest s with hf | hf
      · rw [hf]
        exact hraw_nonneg s (by rw [hsr]; exact List.mem_cons_self s rest)
      · exact hraw_nonneg _ (by rw [hsr]; exact List.mem_cons_of_mem s hf)
  refine ⟨h1, h2, ?_⟩
  intro s rest hsr s' rest' hsr' x y y' hxy hxy' hxlt
  have hx_memO : x ∈ (pre ++ post).map rawScore := (List.of_mem_zip hxy').1
  have hx_pos : 0 < x := hpos x hx_memO
  have hM_pos : 0 < rest'.foldl max s' := lt_trans hx_pos hxlt
  have hO_le : ∀ z ∈ (pre ++ post).map rawScore, z ≤ rest'.foldl max s' := by
    intro z hz'
    rw [hsr'] at hz'
    rcases List.mem_cons.mp hz' with h | h
    · rw [h]
      exact init_le_foldl_max rest' s'
    · exact mem_le_foldl_max rest' s' h
  have hM_memO : rest'.foldl max s' ∈ (pre ++ post).map rawScore := by
    rw [hsr']
    rcases foldl_max_mem rest' s' with hf | hf
    · rw [hf]
      exact List.mem_cons_self s' rest'
    · exact List.mem_cons_of_mem s' hf
  have hM_mem_raw : rest'.foldl max s' ∈ (pre ++ hm :: post).map rawScore := by
    rw [List.map_append, List.mem_append] at hM_memO
    rw [h1, List.mem_append, List.mem_cons]
    rcases hM_memO with h | h
    · exact Or.inl h
    · exact Or.inr (Or.inr h)
  have hraw_le : ∀ z ∈ (pre ++ hm :: post).map rawScore, z ≤ rest'.foldl max s' := by
    intro z hz'
    rcases hraw_mem z hz' with rfl | h
    · exact hM_pos.le
    · exact hO_le z h
  have hmax_raw : rest.foldl max s = rest'.foldl max s' := by
    apply le_antisymm
    · rcases foldl_max_mem rest s with hf | hf
      · rw [hf]
        exact hraw_le s (by rw [hsr]; exact List.mem_cons_self s rest)
      · exact hraw_le _ (by rw [hsr]; exact List.mem_cons_of_mem s hf)
    · rw [hsr] at hM_mem_raw
      rcases List.mem_cons.mp hM_mem_raw with h | h
      · rw [h]
        exact init_le_foldl_max rest s
      · exact mem_le_foldl_max rest s h
  have hmin_raw : rest.foldl min s = 0 := h2 s rest hsr
  have hclM : isclose 0 (rest'.foldl max s') = false := by
    unfold isclose
    apply decide_eq_false
    intro hc
    have e1 : |(0:ℚ) - rest'.foldl max s'| = rest'.foldl max s' := by
      rw [abs_sub_comm, sub_zero, abs_of_nonneg hM_pos.le]
    have e2 : max |(0:ℚ)| |rest'.foldl max s'| = rest'.foldl max s' := by
      rw [abs_zero, abs_of_nonneg hM_pos.le]
      exact max_eq_right hM_pos.le
    rw [e1, e2] at hc
    nlinarith [hM_pos, hc]
  have hy : y = normVal 0 (rest'.foldl max s') x := by
    have hxy2 : (x, y) ∈ (s :: rest).zip
        ((s :: rest).map (normVal 0 (rest'.foldl max s'))) := by
      rw [← hmin_raw, ← hmax_raw, ← _min_max_normalize_eq_map_normVal, ← hsr]
      exact hxy
    exact snd_eq_of_mem_zip_map hxy2
  have hy' : y' = normVal (rest'.foldl min s') (rest'.foldl max s') x := by
    have hxy2 : (x, y') ∈ (s' :: rest').zip
        ((s' :: rest').map (normVal (rest'.foldl min s') (rest'.foldl max s'))) := by
      rw [← _min_max_normalize_eq_map_normVal, ← hsr']
      exact hxy'
    exact snd_eq_of_mem_zip_map hxy2
  have hyv : y = x / rest'.foldl max s' := by
    rw [hy, normVal, if_neg (by rw [hclM]; exact Bool.false_ne_true), sub_zero, sub_zero]
  have hmO_pos : 0 < rest'.foldl min s' := by
    rcases foldl_min_mem rest' s' with hf | hf
    · rw [hf]
      exact hpos s' (by rw [hsr']; exact List.mem_cons_self s' rest')
    · exact hpos _ (by rw [hsr']; exact List.mem_cons_of_mem s' hf)
  rcases Bool.eq_false_or_eq_true
      (isclose (rest'.foldl min s') (rest'.foldl max s')) with hclO | hclO
  · have hy'1 : y' = 1 := by
      rw [hy', normVal, if_pos hclO]
    have hlt1 : y < 1 := by
      rw [hyv, div_lt_one hM_pos]
      exact hxlt
    rw [hy'1]
    exact ne_of_lt hlt1
  · have hy'v : y' = (x - rest'.foldl min s') /
        (rest'.foldl max s' - rest'.foldl min s') := by
      rw [hy', normVal, if_neg (by rw [hclO]; exact Bool.false_ne_true)]
    have hmO_lt : rest'.foldl min s' < rest'.foldl max s' := by
      rcases lt_or_ge (rest'.foldl min s') (rest'.foldl max s') with h | h
      · exact h
      · exfalso
        have heq : rest'.foldl min s' = rest'.foldl max s' :=
          le_antisymm (le_trans (foldl_min_le_init rest' s') (init_le_foldl_max rest' s')) h
        rw [heq, isclose_self] at hclO
        simp at hclO
    intro hyy
    rw [hyv, hy'v] at hyy
    rw [div_eq_div_iff (ne_of_gt hM_pos)
      (by linarith : rest'.foldl max s' - rest'.foldl min s' ≠ 0)] at hyy
    have hmul : rest'.foldl min s' * x = rest'.foldl min s' * rest'.foldl max s' := by
      linear_combination -hyy
    have hxM : x = rest'.foldl max s' := mul_left_cancel₀ (ne_of_gt hmO_pos) hmul
    exact absurd hxM (ne_of_lt hxlt)

/-- Witness for `C10_missing_score`: `hitBare` (no score) before `hitC`
(raw 2) and `hitB` (raw 5): raw scores `[0, 2, 5]`, minimum forced to 0. -/
theorem C10_missing_score_witness :
    (([] ++ hitBare :: [hitC, hitB]).map rawScore =
      ([] : List Hit).map rawScore ++ 0 :: [hitC, hitB].map rawScore)
  ∧ ([(2:ℚ), 5].foldl min 0 = 0) := by
  have h := C10_missing_score [] [hitC, hitB] hitBare rfl
    (by
      intro x hx
      simp only [List.nil_append, List.map_cons, List.map_nil, rawScore, hitC, hitB,
        Option.getD_some, List.mem_cons, List.not_mem_nil, or_false] at hx
      rcases hx with rfl | rfl <;> norm_num)
  refine ⟨h.1, ?_⟩
  refine h.2.1 0 [2, 5] ?_
  simp [rawScore, hitBare, hitC, hitB]

/-! ### Effect-model lemmas and the error-handling claims -/

theorem searchE_eq_run {ε : Type} {env : Env ε} {hash : String → Int}
    {alpha : ℚ} {top_k : ℕ}
    (h : env.cache_enabled = false ∨ cache_get_json env env.cache_key = Except.ok none) :
    searchE env hash alpha top_k = searchRun env hash alpha top_k := by
  unfold searchE
  rcases h with h | h
  · rw [h]
    rfl
  · by_cases hc : env.cache_enabled = true
    · rw [if_pos hc, h]
    · rw [if_neg hc]

theorem searchRun_bm25_error {ε : Type} {env : Env ε} {hash : String → Int}
    {alpha : ℚ} {top_k : ℕ} {e : ε}
    (he : env.bm25_search = Except.error e) :
    searchRun env hash alpha top_k = Except.error e := by
  unfold searchRun
  rw [he]

theorem searchRun_vector_error {ε : Type} {env : Env ε} {hash : String → Int}
    {alpha : ℚ} {top_k : ℕ} {bs : List Hit} {e : ε}
    (hbm : env.bm25_search = Except.ok bs)
    (hve : env.vector_search = Except.error e) :
    searchRun env hash alpha top_k = Except.error e := by
  unfold searchRun
  rw [hbm, hve]

theorem cacheWriteStep_eq {ε : Type} (env : Env ε) (ranked : List FusedResult) :
    cacheWriteStep env ranked = Except.ok ranked := by
  unfold cacheWriteStep
  split <;> rfl

theorem searchRun_ok {ε : Type} {env : Env ε} {hash : String → Int}
    {alpha : ℚ} {top_k : ℕ} {bs vs : List Hit}
    (hbm : env.bm25_search = Except.ok bs)
    (hv : env.vector_search = Except.ok vs) :
    searchRun env hash alpha top_k = Except.ok (search hash bs vs alpha top_k) := by
  unfold searchRun
  rw [hbm, hv]
  show cacheWriteStep env (search hash bs vs alpha top_k) = _
  exact cacheWriteStep_eq env _

/-- **C7**: on the path that reaches the backends (cache disabled or a
clean cache miss), if either backend call raises, `search` propagates that
very error — it returns no partial, single-backend, or empty result. -/
theorem C7_backend_error_propagates {ε : Type} (env : Env ε) (hash : String → Int)
    (alpha : ℚ) (top_k : ℕ)
    (hcache : env.cache_enabled = false ∨
      cache_get_json env env.cache_key = Except.ok none) :
    (∀ e, env.bm25_search = Except.error e →
       searchE env hash alpha top_k = Except.error e)
  ∧ (∀ bs e, env.bm25_search = Except.ok bs → env.vector_search = Except.error e →
       searchE env hash alpha top_k = Except.error e) := by
  constructor
  · intro e he
    rw [searchE_eq_run hcache]
    exact searchRun_bm25_error he
  · intro bs e hbm hve
    rw [searchE_eq_run hcache]
    exact searchRun_vector_error hbm hve

/-- Witness for `C7_backend_error_propagates`: with the cache disabled and
the lexical backend raising `es down`, `search` propagates exactly that
error. -/
theorem C7_backend_error_propagates_witness :
    searchE envBm25Fails hash0 (1/2) 10 = Except.error "es down" :=
  (C7_backend_error_propagates envBm25Fails hash0 (1/2) 10 (Or.inl rfl)).1 "es down" rfl

/-- **C6** counterexample: with both backends healthy but the Redis GET
raising (cache read failure), `search` propagates the cache error instead
of completing the fusion — the claim that a cache *read* failure is always
swallowed is false on this code (only the cache *write* is wrapped in
`try/except`, and only `JSONDecodeError` is caught on the read path). -/
theorem C6_counterexample :
    searchE envCacheReadFails hash0 (1/2) 10 = Except.error "redis down"
  ∧ envCacheReadFails.bm25_search = Except.ok [hitA]
  ∧ envCacheReadFails.vector_search = Except.ok ([] : List Hit) :=
  ⟨rfl, rfl, rfl⟩

/-- **C6** (amended): the cache is best-effort on two of its three failure
modes — a failing cache *write* is swallowed (the fused list is returned
whatever `cache_set` does), and an undecodable cached payload on read is
treated as a miss; but an exception raised by the cache read itself
propagates (see the counterexample). -/
theorem C6_cache_best_effort {ε : Type} (env : Env ε) (hash : String → Int)
    (alpha : ℚ) (top_k : ℕ) (bs vs : List Hit)
    (hbm : env.bm25_search = Except.ok bs)
    (hv : env.vector_search = Except.ok vs) :
    ((env.cache_enabled = false ∨ cache_get_json env env.cache_key = Except.ok none) →
       searchE env hash alpha top_k = Except.ok (search hash bs vs alpha top_k))
  ∧ (∀ raw, env.cache_get_text env.cache_key = Except.ok (some raw) →
       env.decode raw = none →
       searchE env hash alpha top_k = Except.ok (search hash bs vs alpha top_k)) := by
  constructor
  · intro hcache
    rw [searchE_eq_run hcache]
    exact searchRun_ok hbm hv
  · intro raw hraw hdec
    have hmiss : cache_get_json env env.cache_key = Except.ok none := by
      unfold cache_get_json
      rw [hraw]
      show Except.ok (env.decode raw) = Except.ok none
      rw [hdec]
    rw [searchE_eq_run (Or.inr hmiss)]
    exact searchRun_ok hbm hv

/-- Witness for `C6_cache_best_effort`: the Redis SET raises, yet `search`
returns the fused list. -/
theorem C6_cache_best_effort_witness :
    searchE envCacheWriteFails hash0 (1/2) 10 =
      Except.ok (search hash0 [hitA] [] (1/2) 10) :=
  (C6_cache_best_effort envCacheWriteFails hash0 (1/2) 10 [hitA] [] rfl rfl).1
    (Or.inr rfl)

end HybridFusion
